import Mathlib

/-!
Verification development for the assemblies repository
(`src/assemblies/utils.py` and `src/brain/connectome/connectome.py`).

The Python code is shallowly embedded: insertion-ordered Python `dict`s
become association lists with update-in-place / append-on-miss semantics,
numpy matrices become functions `Nat → Nat → ℚ`, a fire round that can
raise becomes an `Option`-valued function, and the external randomness
(`RandomMatrix`) is abstracted as a fixed matrix-valued field of the
connectome state (the spec requires determinism given a fixed seed).
-/

namespace AC

/-- Insertion-ordered dictionary, modelling a Python `dict`:
lookup returns the first binding, assignment updates an existing key in
place (keeping its position) and otherwise appends at the end. -/
abbrev Dict (K V : Type) : Type := List (K × V)

namespace Dict

variable {K V : Type} [DecidableEq K]

/-- Python `d.get(k)` / `d[k]`. -/
def find : Dict K V → K → Option V
  | [], _ => none
  | (k', v) :: rest, k => if k' = k then some v else find rest k

/-- Python `d[k] = v`. -/
def set : Dict K V → K → V → Dict K V
  | [], k, v => [(k, v)]
  | (k', v') :: rest, k, v =>
      if k' = k then (k, v) :: rest else (k', v') :: set rest k v

/-- Python `list(d.keys())` (insertion order). -/
def keys (d : Dict K V) : List K := d.map Prod.fst

end Dict

/-! ## The firing scheduler (`src/assemblies/utils.py`, `fire_many`)

The repository's `Assembly` / `Stimulus` objects are used by `fire_many`
only through `isinstance` checks, `.parents` and `.area`, with `dict`
keys compared by object identity.  We model the population of
projectables as an environment mapping integer identities to their kind
and attributes, and areas by integer identities. -/

/-- What `fire_many` can observe of a projectable: either a `Stimulus`
(never expanded), or an `Assembly` with an owning area and a list of
parent identities. -/
inductive ProjInfo where
  | stim : ProjInfo
  | asm : Nat → List Nat → ProjInfo
deriving DecidableEq

/-- Environment: projectable identity ↦ its kind/attributes. -/
def Env : Type := Nat → ProjInfo

/-- `isinstance(x, Assembly)` (equivalently `not isinstance(x, Stimulus)`,
as `Projectable = Stimulus | Assembly`). -/
def isAsm (env : Env) (i : Nat) : Bool :=
  match env i with
  | .asm _ _ => true
  | .stim => false

/-- `ass.parents` (a `Stimulus` has none). -/
def parentsOf (env : Env) (i : Nat) : List Nat :=
  match env i with
  | .asm _ ps => ps
  | .stim => []

/-- `ass.area` (unused for a `Stimulus`; defaulted to 0). -/
def areaOf (env : Env) (i : Nat) : Nat :=
  match env i with
  | .asm a _ => a
  | .stim => 0

/-- One layer of the scheduler: projectable identity ↦ destination area
identities, in insertion order. -/
def Layer : Type := Dict Nat (List Nat)

/-- The body of `fire_many`'s `while` loop (utils.py lines 27–33):
builds `current_layer` from the assemblies of the previous layer.
Faithfully reproduces `current_layer[parent] =
current_layer.get(ass, []) + [ass.area]` — note the lookup is keyed by
the child `ass`, not by `parent`. -/
def layerStep (env : Env) (layer : Layer) : Layer :=
  (layer.keys.filter (fun i => isAsm env i)).foldl
    (fun cur i =>
      (parentsOf env i).foldl
        (fun cur p => cur.set p ((cur.find i).getD [] ++ [areaOf env i]))
        cur)
    []

/-- The `while any(isinstance(p, Assembly) ...)` loop of `fire_many`
(utils.py lines 26–33), fuelled: `none` means the loop did not finish
within `fuel` iterations (the Python loops forever on a cyclic parent
graph, which the spec declares a caller invariant). -/
def buildLayers (env : Env) : Nat → Layer → Option (List Layer)
  | 0, layer =>
      if layer.keys.any (fun i => isAsm env i) then none else some [layer]
  | fuel + 1, layer =>
      if layer.keys.any (fun i => isAsm env i) then
        match buildLayers env fuel (layerStep env layer) with
        | none => none
        | some ls => some (layer :: ls)
      else some [layer]

/-- A key of the mapping handed to `brain.next_round`: a `Stimulus` or an
`Area` (distinct Python types, hence never equal as dict keys). -/
inductive PKey where
  | stim : Nat → PKey
  | area : Nat → PKey
deriving DecidableEq

/-- The per-layer mapping construction of `fire_many` (utils.py lines
37–45): stimulus entries keep their key, assembly entries are re-keyed by
their owning area with destination lists concatenated on collision, and
the two dicts are merged (`{**stimuli_mappings, **assembly_mapping}`). -/
def layerToMapping (env : Env) (layer : Layer) : Dict PKey (List Nat) :=
  let stimMap : Dict PKey (List Nat) :=
    (layer.filter (fun kv => !isAsm env kv.1)).map
      (fun kv => (PKey.stim kv.1, kv.2))
  let asmMap : Dict PKey (List Nat) :=
    (layer.filter (fun kv => isAsm env kv.1)).foldl
      (fun m kv =>
        m.set (PKey.area (areaOf env kv.1))
          ((m.find (PKey.area (areaOf env kv.1))).getD [] ++ kv.2))
      []
  asmMap.foldl (fun m kv => m.set kv.1 kv.2) stimMap

/-- `fire_many(brain, projectables, area)` (utils.py lines 7–46), returning
the ordered list of mappings passed to `brain.next_round` — one per layer,
root layer first.  `fuel` bounds the layer-building loop. -/
def fire_many (env : Env) (fuel : Nat) (projectables : List Nat)
    (target : Nat) : Option (List (Dict PKey (List Nat))) :=
  let layer0 : Layer := projectables.foldl (fun m i => m.set i [target]) []
  match buildLayers env fuel layer0 with
  | none => none
  | some ls => some (ls.reverse.map (layerToMapping env))

/-- Fan-in scenario for C1: stimulus `0` feeds assemblies `1` (area 101)
and `2` (area 102), which are the two parents of assembly `3` (area 103). -/
def fanInEnv : Env := fun i =>
  if i = 1 then .asm 101 [0]
  else if i = 2 then .asm 102 [0]
  else if i = 3 then .asm 103 [1, 2]
  else .stim

/-- Chain scenario for C2: stimulus `0` feeds assembly `1` (owning area
`x`), the parent of assembly `2` (owning area `y`). -/
def chainEnv (x y : Nat) : Env := fun i =>
  if i = 1 then .asm x [0]
  else if i = 2 then .asm y [1]
  else .stim

/-! ## The connectome engine (`src/brain/connectome/connectome.py`)

`Area`, `Stimulus`, `Connection` and `AbstractConnectome` live outside
`src/`; their attributes are modelled from the spec §3: an `Area` has a
neuron count `n` and winner quota `k`, a `Stimulus` has `n`, a
`Connection` owns a weight matrix and a plasticity rate `beta`.  Python
object identity is modelled by an integer identity field.  numpy weight
matrices become functions `Nat → Nat → ℚ` (row = source neuron,
column = destination neuron, matching the `order='F'` reshape to
`(part.n, area.n)`). -/

/-- Modelled from the spec: the `Area` value object (identity, `n`, `k`). -/
structure Area where
  aid : Nat
  n : Nat
  k : Nat
deriving DecidableEq

/-- Modelled from the spec: the `Stimulus` value object (identity, `n`). -/
structure Stimulus where
  sid : Nat
  n : Nat
deriving DecidableEq

/-- `BrainPart`: an `Area` or a `Stimulus` (spec §3). -/
inductive BrainPart where
  | area : Area → BrainPart
  | stim : Stimulus → BrainPart
deriving DecidableEq

/-- `part.n`. -/
def BrainPart.n : BrainPart → Nat
  | .area a => a.n
  | .stim s => s.n

/-- `isinstance(part, Area)`. -/
def BrainPart.isArea : BrainPart → Bool
  | .area _ => true
  | .stim _ => false

/-- Modelled from the spec: a `Connection` owns a dense weight matrix and
a plasticity rate `beta`, constant for its lifetime (spec §3). -/
structure Connection where
  beta : ℚ
  synapses : Nat → Nat → ℚ

/-- The connectome state (`Connectome` plus the `AbstractConnectome`
fields it inherits, the latter modelled from the spec §3: registered
parts, the `(BrainPart, Area) → Connection` table — keyed here by a pair
of `BrainPart`s because `_initialize_parts` in fact also passes a
`Stimulus` as the destination argument — per-area winner sets created
empty, and the global plasticity flag).  The external `RandomMatrix`
generator is modelled as the fixed field `gen` (one realization of the
Bernoulli(p) matrices; the spec requires determinism given a fixed
seed), and the `beta` a fresh `Connection` receives is the fixed field
`defaultBeta`. -/
structure Connectome where
  p : ℚ
  gen : BrainPart → BrainPart → Nat → Nat → ℚ
  defaultBeta : ℚ
  areas : List Area
  stimuli : List Stimulus
  connections : Dict (BrainPart × BrainPart) Connection
  winners : Area → List Nat
  plasticityDisabled : Bool

namespace Connectome

/-- `_initialize_connection(part, area)` (connectome.py lines 54–63):
store a freshly generated matrix as the connection from `part` to
`other`.  (The destination parameter is typed `Area` in the source but
is in fact also called with a `Stimulus`; we therefore accept any
`BrainPart`.) -/
def initConnection (c : Connectome) (part other : BrainPart) : Connectome :=
  let conn : Connection := { beta := c.defaultBeta, synapses := c.gen part other }
  { c with connections := c.connections.set (part, other) conn }

/-- `self.areas + self.stimuli`. -/
def partsList (c : Connectome) : List BrainPart :=
  c.areas.map BrainPart.area ++ c.stimuli.map BrainPart.stim

/-- `_initialize_parts(parts)` (connectome.py lines 42–52). -/
def initParts (c : Connectome) (parts : List BrainPart) : Connectome :=
  parts.foldl (fun c part =>
    (partsList c).foldl (fun c other =>
      let c' := initConnection c part other
      if part.isArea ∧ part ≠ other then initConnection c' other part else c') c) c

/-- `add_area` (connectome.py lines 34–36; the `super().add_area` call is
modelled from the spec: registration appends the area). -/
def add_area (c : Connectome) (a : Area) : Connectome :=
  initParts { c with areas := c.areas ++ [a] } [.area a]

/-- `add_stimulus` (connectome.py lines 38–40; the `super().add_stimulus`
call is modelled from the spec: registration appends the stimulus). -/
def add_stimulus (c : Connectome) (s : Stimulus) : Connectome :=
  initParts { c with stimuli := c.stimuli ++ [s] } [.stim s]

/-- Connection lookup with a zero default (in the modelled flows every
lookup hits an existing key, matching the source's direct indexing). -/
def connAt (c : Connectome) (key : BrainPart × BrainPart) : Connection :=
  (c.connections.find key).getD { beta := 0, synapses := fun _ _ => 0 }

/-- `prev_winner_inputs` (connectome.py lines 135–140): entry `j` is the
total input to destination neuron `j` of `a` — for each source area, the
sum of its connection's rows indexed by that area's current winners; for
each source stimulus, the full column sum of its connection. -/
def inputVector (c : Connectome) (a : Area) (sources : List BrainPart) : List ℚ :=
  let srcAreas := sources.filterMap (fun p =>
    match p with | .area x => some x | .stim _ => none)
  let srcStimuli := sources.filterMap (fun p =>
    match p with | .stim s => some s | .area _ => none)
  (List.range a.n).map (fun j =>
    srcAreas.foldl (fun acc src =>
      acc + (c.winners src).foldl
        (fun t w => t + (connAt c (.area src, .area a)).synapses w j) 0) 0
    + srcStimuli.foldl (fun acc s =>
      acc + (List.range s.n).foldl
        (fun t i => t + (connAt c (.stim s, .area a)).synapses i j) 0) 0)

/-- Stable ascending argsort of `v` (indices `0..n-1` sorted by value,
ties by original position). -/
def argsort (v : List ℚ) : List Nat :=
  List.insertionSort (fun i j => v.getD i 0 ≤ v.getD j 0) (List.range v.length)

/-- `np.argpartition(v, n - k)[-k:]` (connectome.py line 141), modelled
from numpy's documented contract: the call raises unless the Python int
`n - k` lies in `[-n, n-1]` (i.e. `1 ≤ k ≤ 2n`), which we model as
`none`; otherwise it returns a permutation of `0..n-1` that is
implementation-defined beyond the partition property (the spec §4.1
declares the tie-break implementation-defined but deterministic), of
which we fix the stable ascending argsort as the deterministic instance;
the slice `[-k:]` keeps the last `min k n` entries, i.e. the indices of
the `min k n` largest values. -/
def topK (v : List ℚ) (k : Nat) : Option (List Nat) :=
  if 1 ≤ k ∧ k ≤ 2 * v.length then
    some ((argsort v).drop (v.length - k))
  else none

/-- The lazy-wiring loop of `_project_into` (connectome.py lines
131–133): `if (part, area) not in self.connections:
self._initialize_connection(part, area)` for each source. -/
def ensureConnections (c : Connectome) (a : Area) (sources : List BrainPart) :
    Connectome :=
  sources.foldl (fun c part =>
    if (c.connections.find (part, .area a)).isSome then c
    else initConnection c part (.area a)) c

/-- `_project_into(area, sources)` (connectome.py lines 121–141): lazily
create any missing connection into `a`, then compute the input vector
and select the top-`k` winners (`none` models the numpy error). -/
def project_into (c : Connectome) (a : Area) (sources : List BrainPart) :
    Connectome × Option (List Nat) :=
  let c := ensureConnections c a sources
  (c, topK (inputVector c a sources) a.k)

/-- The `for area in to_update: new_winners[area] = self._project_into(...)`
loop of `fire` (connectome.py lines 159–161), threading the lazily
extended connectome and aborting (`none`) if any projection raises. -/
def projectAll (c : Connectome) :
    List (Area × List BrainPart) → Option (Connectome × Dict Area (List Nat))
  | [] => some (c, [])
  | (a, srcs) :: rest =>
      match project_into c a srcs with
      | (_, none) => none
      | (c', some w) =>
          match projectAll c' rest with
          | none => none
          | some (c'', nw) => some (c'', (a, w) :: nw)

/-- A firing request: `Dict[BrainPart, List[Area]]` in insertion order. -/
abbrev Req : Type := List (BrainPart × List Area)

/-- `sources_mapping` (connectome.py lines 149–154): destination area ↦
list of the source parts that target it this round, with multiplicity
and in request order. -/
def sources_mapping (req : Req) : Dict Area (List BrainPart) :=
  req.foldl (fun m pa =>
    pa.2.foldl (fun m a => m.set a ((m.find a).getD [] ++ [pa.1])) m) []

/-- The "active" neurons of a source this round (connectome.py lines
95–96): all indices for a `Stimulus`, the current winner set for an
`Area`. -/
def activeOf (c : Connectome) (p : BrainPart) : List Nat :=
  match p with
  | .stim s => List.range s.n
  | .area ar => c.winners ar

/-- One iteration of the inner loop of `update_connectomes`
(connectome.py lines 92–109): `connection.synapses[source_neurons,
new_winners[area][:, None]] *= (1 + beta)` — multiply the entries of the
connection from `src` into `a` whose source index is active and whose
destination index is a new winner (`win`) by `(1 + beta)`. -/
def plastApply (a : Area) (win : List Nat) (c : Connectome) (src : BrainPart) :
    Connectome :=
  let conn := connAt c (src, .area a)
  let conn' : Connection :=
    { beta := conn.beta,
      synapses := fun i j =>
        if i ∈ activeOf c src ∧ j ∈ win then
          conn.synapses i j * (1 + conn.beta)
        else conn.synapses i j }
  { c with connections := c.connections.set (src, .area a) conn' }

/-- `update_connectomes(new_winners, sources)` (connectome.py lines
83–109): skip entirely when plasticity is disabled; otherwise, for every
touched area and every source occurrence feeding it, multiply the
weight entries from active source neurons to new winner neurons by
`(1 + beta)` of that connection. -/
def update_connectomes (c : Connectome) (nw : Dict Area (List Nat))
    (sm : Dict Area (List BrainPart)) : Connectome :=
  if c.plasticityDisabled then c
  else
    nw.foldl (fun c anw =>
      ((sm.find anw.1).getD []).foldl (plastApply anw.1 anw.2) c) c

/-- `update_winners(new_winners, sources)` (connectome.py lines
111–119): overwrite the winner set of every touched area with its new
winners. -/
def update_winners (c : Connectome) (nw : Dict Area (List Nat))
    (sm : Dict Area (List BrainPart)) : Connectome :=
  sm.keys.foldl (fun c a =>
    { c with winners := fun a' => if a' = a then (nw.find a).getD [] else c.winners a' }) c

/-- `fire(connections)` (connectome.py lines 143–164): build the
per-area source lists, compute all new winners, apply plasticity, then
commit the winners.  `none` models an exception escaping the call. -/
def fire (c : Connectome) (req : Req) : Option Connectome :=
  match projectAll c (sources_mapping req) with
  | none => none
  | some (c1, nw) =>
      some (update_winners (update_connectomes c1 nw (sources_mapping req)) nw
        (sources_mapping req))

end Connectome

/-! ## Concrete instances used by counterexamples and witnesses -/

/-- An empty connectome (no registered parts, no connections, empty
winner sets, plasticity disabled, all generated weights 1). -/
def c0 : Connectome :=
  { p := 1, gen := fun _ _ _ _ => 1, defaultBeta := 0, areas := [], stimuli := [],
    connections := [], winners := fun _ => [], plasticityDisabled := true }

/-- A stimulus with one neuron. -/
def s1 : Stimulus := ⟨0, 1⟩

/-- An area with one neuron and winner quota one. -/
def aY : Area := ⟨0, 1, 1⟩

/-- A stimulus (identity 5) that is never registered anywhere. -/
def sU : Stimulus := ⟨5, 1⟩

/-- A connectome with only the area `aY` registered and no connections. -/
def cA : Connectome := { c0 with areas := [aY] }

/-- A registered one-neuron stimulus used by the fire witnesses. -/
def sW : Stimulus := ⟨1, 1⟩

/-- A registered area with one neuron and quota one, used by the fire
witnesses. -/
def aW : Area := ⟨3, 1, 1⟩

/-- A concrete all-ones connection with plasticity rate 1. -/
def connW : Connection := { beta := 1, synapses := fun _ _ => 1 }

/-- A connectome with `sW` and `aW` registered, the connection from `sW`
into `aW` present, empty winner sets, and plasticity enabled. -/
def cW : Connectome :=
  { p := 1, gen := fun _ _ _ _ => 1, defaultBeta := 1, areas := [aW],
    stimuli := [sW], connections := [((.stim sW, .area aW), connW)],
    winners := fun _ => [], plasticityDisabled := false }

/-- The request firing `sW` into `aW`. -/
def reqW : Connectome.Req := [(.stim sW, [aW])]

/-- Equality of all connectome fields except the connection table:
the shape of what a phase of `fire` may and may not touch. -/
def sameButConn (c c' : Connectome) : Prop :=
  c'.p = c.p ∧ c'.gen = c.gen ∧ c'.defaultBeta = c.defaultBeta ∧
  c'.areas = c.areas ∧ c'.stimuli = c.stimuli ∧ c'.winners = c.winners ∧
  c'.plasticityDisabled = c.plasticityDisabled

/-- The effect of `m` plasticity applications with plasticity rate `β`,
active-source set `act` and winner set `win` on a weight matrix: entries
from an active source neuron to a winning destination neuron are
multiplied by `(1 + β)^m`, all others are untouched. -/
def plastMult (β : ℚ) (act win : List Nat) (m : Nat) (f : Nat → Nat → ℚ) :
    Nat → Nat → ℚ :=
  fun i j => if i ∈ act ∧ j ∈ win then f i j * (1 + β) ^ m else f i j

/-- The contribution of a single occurrence of source `p` to the total
input of destination neuron `j` of area `a` (one summand of
`prev_winner_inputs`): for an area source, the sum of its connection's
weights from its current winners to `j`; for a stimulus source, the full
column sum of its connection. -/
def contrib (c : Connectome) (a : Area) (p : BrainPart) (j : Nat) : ℚ :=
  match p with
  | .area src =>
      (c.winners src).foldl
        (fun t w => t + (Connectome.connAt c (.area src, .area a)).synapses w j) 0
  | .stim s =>
      (List.range s.n).foldl
        (fun t i => t + (Connectome.connAt c (.stim s, .area a)).synapses i j) 0

/-! ## Dictionary lemmas -/

namespace Dict

variable {K V : Type} [DecidableEq K]

theorem find_set (d : Dict K V) (k k' : K) (v : V) :
    (d.set k v).find k' = if k = k' then some v else d.find k' := by
  induction d with
  | nil => simp [set, find]
  | cons kv rest ih =>
      obtain ⟨k₀, v₀⟩ := kv
      by_cases h₀ : k₀ = k
      · subst h₀
        by_cases h₁ : k₀ = k'
        · subst h₁; simp [set, find]
        · simp [set, find, h₁]
      · by_cases h₁ : k₀ = k'
        · subst h₁
          have : ¬ k = k₀ := fun h => h₀ h.symm
          simp [set, find, h₀, this]
        · simp [set, find, h₀, h₁, ih]

theorem find_set_self (d : Dict K V) (k : K) (v : V) :
    (d.set k v).find k = some v := by
  simp [find_set]

theorem find_set_ne (d : Dict K V) (k k' : K) (v : V) (h : k ≠ k') :
    (d.set k v).find k' = d.find k' := by
  simp [find_set, h]

theorem keys_set (d : Dict K V) (k : K) (v : V) :
    (d.set k v).keys = if k ∈ d.keys then d.keys else d.keys ++ [k] := by
  induction d with
  | nil => simp [set, keys]
  | cons kv rest ih =>
      obtain ⟨k₀, v₀⟩ := kv
      by_cases h₀ : k₀ = k
      · subst h₀; simp [set, keys]
      · have h₀' : ¬ k = k₀ := fun h => h₀ h.symm
        simp only [set, keys, List.map_cons, if_neg h₀]
        rw [show List.map Prod.fst (set rest k v) = (set rest k v).keys from rfl, ih]
        by_cases hm : k ∈ List.map Prod.fst rest
        · simp [keys, hm, h₀']
        · simp [keys, hm, h₀']

theorem keys_set_nodup (d : Dict K V) (k : K) (v : V) (h : d.keys.Nodup) :
    (d.set k v).keys.Nodup := by
  rw [keys_set]
  by_cases hm : k ∈ d.keys
  · simpa [hm]
  · simpa [hm, List.nodup_append] using h

theorem find_mem (d : Dict K V) (k : K) (v : V) (h : d.find k = some v) :
    (k, v) ∈ d := by
  induction d with
  | nil => simp [find] at h
  | cons kv rest ih =>
      obtain ⟨k₀, v₀⟩ := kv
      by_cases h₀ : k₀ = k
      · subst h₀
        simp [find] at h
        subst h
        exact List.mem_cons_self _ _
      · simp [find, h₀] at h
        exact List.mem_cons_of_mem _ (ih h)

theorem find_isSome_iff_mem_keys (d : Dict K V) (k : K) :
    (d.find k).isSome ↔ k ∈ d.keys := by
  induction d with
  | nil => simp [find, keys]
  | cons kv rest ih =>
      obtain ⟨k₀, v₀⟩ := kv
      by_cases h₀ : k₀ = k
      · subst h₀; simp [find, keys]
      · have h₀' : k ≠ k₀ := fun h => h₀ h.symm
        simp [find, keys, h₀, h₀', ih]

theorem find_eq_none_of_not_mem_keys (d : Dict K V) (k : K)
    (h : k ∉ d.keys) : d.find k = none := by
  have := (find_isSome_iff_mem_keys d k).not.mpr h
  cases hf : d.find k with
  | none => rfl
  | some v => rw [hf] at this; simp at this

theorem find_isSome_set (d : Dict K V) (k k' : K) (v : V)
    (h : (d.find k').isSome) : ((d.set k v).find k').isSome := by
  rw [find_set]
  by_cases hk : k = k' <;> simp [hk, h]

theorem mem_keys_set (d : Dict K V) (k k' : K) (v : V) :
    k' ∈ (d.set k v).keys ↔ k' ∈ d.keys ∨ k' = k := by
  rw [keys_set]
  by_cases hm : k ∈ d.keys
  · rw [if_pos hm]
    constructor
    · exact Or.inl
    · rintro (h | h)
      · exact h
      · exact h ▸ hm
  · rw [if_neg hm]
    simp [List.mem_append]

end Dict

/-! ## Connectome-engine lemmas -/

namespace Connectome

theorem sameButConn_refl (c : Connectome) : sameButConn c c :=
  ⟨rfl, rfl, rfl, rfl, rfl, rfl, rfl⟩

theorem sameButConn_trans {c₁ c₂ c₃ : Connectome}
    (h₁ : sameButConn c₁ c₂) (h₂ : sameButConn c₂ c₃) : sameButConn c₁ c₃ := by
  obtain ⟨a₁, b₁, d₁, e₁, f₁, g₁, i₁⟩ := h₁
  obtain ⟨a₂, b₂, d₂, e₂, f₂, g₂, i₂⟩ := h₂
  exact ⟨a₂.trans a₁, b₂.trans b₁, d₂.trans d₁, e₂.trans e₁,
         f₂.trans f₁, g₂.trans g₁, i₂.trans i₁⟩

theorem initConnection_sameButConn (c : Connectome) (p o : BrainPart) :
    sameButConn c (initConnection c p o) :=
  ⟨rfl, rfl, rfl, rfl, rfl, rfl, rfl⟩

theorem initConnection_find (c : Connectome) (p o : BrainPart)
    (k : BrainPart × BrainPart) :
    (initConnection c p o).connections.find k =
      if (p, o) = k then
        some { beta := c.defaultBeta, synapses := c.gen p o }
      else c.connections.find k :=
  Dict.find_set _ _ _ _

theorem ensure_cons (c : Connectome) (a : Area) (p : BrainPart)
    (rest : List BrainPart) :
    ensureConnections c a (p :: rest) =
      ensureConnections
        (if (c.connections.find (p, .area a)).isSome then c
         else initConnection c p (.area a)) a rest := rfl

theorem ensure_sameButConn (c : Connectome) (a : Area)
    (srcs : List BrainPart) : sameButConn c (ensureConnections c a srcs) := by
  induction srcs generalizing c with
  | nil => exact sameButConn_refl c
  | cons p rest ih =>
      rw [ensure_cons]
      by_cases h : (c.connections.find (p, BrainPart.area a)).isSome
      · rw [if_pos h]; exact ih c
      · rw [if_neg h]
        exact sameButConn_trans (initConnection_sameButConn c p (.area a)) (ih _)

theorem ensure_find_some (c : Connectome) (a : Area) (srcs : List BrainPart)
    (k : BrainPart × BrainPart) (v : Connection)
    (h : c.connections.find k = some v) :
    (ensureConnections c a srcs).connections.find k = some v := by
  induction srcs generalizing c with
  | nil => exact h
  | cons p rest ih =>
      rw [ensure_cons]
      by_cases hp : (c.connections.find (p, BrainPart.area a)).isSome
      · rw [if_pos hp]; exact ih c h
      · rw [if_neg hp]
        refine ih _ ?_
        rw [initConnection_find]
        by_cases hk : (p, BrainPart.area a) = k
        · rw [← hk] at h; rw [h] at hp; simp at hp
        · rw [if_neg hk]; exact h

theorem ensure_find_other (c : Connectome) (a : Area) (srcs : List BrainPart)
    (k : BrainPart × BrainPart) (h : k.2 ≠ .area a) :
    (ensureConnections c a srcs).connections.find k = c.connections.find k := by
  induction srcs generalizing c with
  | nil => rfl
  | cons p rest ih =>
      rw [ensure_cons]
      by_cases hp : (c.connections.find (p, BrainPart.area a)).isSome
      · rw [if_pos hp]; exact ih c
      · rw [if_neg hp]
        rw [ih, initConnection_find, if_neg]
        intro hk
        exact h (by rw [← hk])

theorem ensure_find_isSome_mono (c : Connectome) (a : Area)
    (srcs : List BrainPart) (k : BrainPart × BrainPart)
    (h : (c.connections.find k).isSome) :
    ((ensureConnections c a srcs).connections.find k).isSome := by
  cases hv : c.connections.find k with
  | none => rw [hv] at h; simp at h
  | some v => rw [ensure_find_some c a srcs k v hv]; rfl

theorem ensure_sources_isSome (c : Connectome) (a : Area)
    (srcs : List BrainPart) (p : BrainPart) (hp : p ∈ srcs) :
    ((ensureConnections c a srcs).connections.find (p, .area a)).isSome := by
  induction srcs generalizing c with
  | nil => simp at hp
  | cons q rest ih =>
      rw [ensure_cons]
      rcases List.mem_cons.mp hp with hq | hq
      · subst hq
        by_cases hs : (c.connections.find (p, BrainPart.area a)).isSome
        · rw [if_pos hs]; exact ensure_find_isSome_mono _ _ _ _ hs
        · rw [if_neg hs]
          refine ensure_find_isSome_mono _ _ _ _ ?_
          rw [initConnection_find, if_pos rfl]; rfl
      · by_cases hs : (c.connections.find (q, BrainPart.area a)).isSome
        · rw [if_pos hs]; exact ih _ hq
        · rw [if_neg hs]; exact ih _ hq

theorem ensure_find_congr (a : Area) (srcs : List BrainPart)
    {c d : Connectome} (hg : d.gen = c.gen) (hb : d.defaultBeta = c.defaultBeta)
    (hf : ∀ p, d.connections.find (p, .area a) = c.connections.find (p, .area a)) :
    ∀ q, (ensureConnections d a srcs).connections.find (q, .area a) =
      (ensureConnections c a srcs).connections.find (q, .area a) := by
  induction srcs generalizing c d with
  | nil => exact hf
  | cons p rest ih =>
      rw [ensure_cons, ensure_cons]
      by_cases h : (c.connections.find (p, BrainPart.area a)).isSome
      · rw [if_pos h, if_pos (by rw [hf p]; exact h)]
        exact ih hg hb hf
      · rw [if_neg h, if_neg (by rw [hf p]; exact h)]
        refine ih ?_ ?_ ?_
        · exact hg
        · exact hb
        · intro q
          rw [initConnection_find, initConnection_find]
          by_cases hk : (p, BrainPart.area a) = (q, BrainPart.area a)
          · rw [if_pos hk, if_pos hk, hg, hb]
          · rw [if_neg hk, if_neg hk]; exact hf q

theorem inputVector_congr (a : Area) (srcs : List BrainPart)
    {c d : Connectome} (hw : d.winners = c.winners)
    (hf : ∀ p, d.connections.find (p, .area a) = c.connections.find (p, .area a)) :
    inputVector d a srcs = inputVector c a srcs := by
  simp only [inputVector, connAt, hw, hf]

theorem project_into_fst (c : Connectome) (a : Area) (srcs : List BrainPart) :
    (project_into c a srcs).1 = ensureConnections c a srcs := rfl

theorem project_into_snd (c : Connectome) (a : Area) (srcs : List BrainPart) :
    (project_into c a srcs).2 =
      topK (inputVector (ensureConnections c a srcs) a srcs) a.k := rfl

theorem project_into_snd_congr (a : Area) (srcs : List BrainPart)
    {c d : Connectome} (hg : d.gen = c.gen) (hb : d.defaultBeta = c.defaultBeta)
    (hw : d.winners = c.winners)
    (hf : ∀ p, d.connections.find (p, .area a) = c.connections.find (p, .area a)) :
    (project_into d a srcs).2 = (project_into c a srcs).2 := by
  rw [project_into_snd, project_into_snd]
  have hw' : (ensureConnections d a srcs).winners =
      (ensureConnections c a srcs).winners := by
    rw [(ensure_sameButConn d a srcs).2.2.2.2.2.1,
        (ensure_sameButConn c a srcs).2.2.2.2.2.1, hw]
  have hf' := ensure_find_congr a srcs hg hb hf
  rw [inputVector_congr a srcs hw' hf']

theorem projectAll_cons (c : Connectome) (a : Area) (srcs : List BrainPart)
    (rest : List (Area × List BrainPart)) :
    projectAll c ((a, srcs) :: rest) =
      match (project_into c a srcs).2 with
      | none => none
      | some w =>
        match projectAll (project_into c a srcs).1 rest with
        | none => none
        | some (c'', nw) => some (c'', (a, w) :: nw) := by
  show (match project_into c a srcs with
        | (_, none) => none
        | (c', some w) =>
          match projectAll c' rest with
          | none => none
          | some (c'', nw) => some (c'', (a, w) :: nw)) = _
  rcases project_into c a srcs with ⟨c', w?⟩
  cases w? <;> rfl

theorem projectAll_sameButConn (l : List (Area × List BrainPart)) :
    ∀ (c c₁ : Connectome) (nw : Dict Area (List Nat)),
      projectAll c l = some (c₁, nw) → sameButConn c c₁ := by
  induction l with
  | nil =>
      intro c c₁ nw h
      simp only [projectAll, Option.some.injEq, Prod.mk.injEq] at h
      exact h.1 ▸ sameButConn_refl c
  | cons e rest ih =>
      intro c c₁ nw h
      obtain ⟨a, srcs⟩ := e
      rw [projectAll_cons] at h
      cases hw : (project_into c a srcs).2 with
      | none => rw [hw] at h; simp at h
      | some w =>
          rw [hw] at h
          cases hr : projectAll (project_into c a srcs).1 rest with
          | none => rw [hr] at h; simp at h
          | some p =>
              obtain ⟨c'', nw'⟩ := p
              rw [hr] at h
              simp only [Option.some.injEq, Prod.mk.injEq] at h
              have h1 : c'' = c₁ := h.1
              have hstep : sameButConn c (project_into c a srcs).1 := by
                rw [project_into_fst]; exact ensure_sameButConn c a srcs
              exact h1 ▸ sameButConn_trans hstep (ih _ _ _ hr)

theorem projectAll_keys (l : List (Area × List BrainPart)) :
    ∀ (c c₁ : Connectome) (nw : Dict Area (List Nat)),
      projectAll c l = some (c₁, nw) →
        nw.map Prod.fst = l.map Prod.fst := by
  induction l with
  | nil =>
      intro c c₁ nw h
      simp only [projectAll, Option.some.injEq, Prod.mk.injEq] at h
      rw [← h.2]; rfl
  | cons e rest ih =>
      intro c c₁ nw h
      obtain ⟨a, srcs⟩ := e
      rw [projectAll_cons] at h
      cases hw : (project_into c a srcs).2 with
      | none => rw [hw] at h; simp at h
      | some w =>
          rw [hw] at h
          cases hr : projectAll (project_into c a srcs).1 rest with
          | none => rw [hr] at h; simp at h
          | some p =>
              obtain ⟨c'', nw'⟩ := p
              rw [hr] at h
              simp only [Option.some.injEq, Prod.mk.injEq] at h
              rw [← h.2]
              simp only [List.map_cons]
              rw [ih _ _ _ hr]

theorem projectAll_find_frame (l : List (Area × List BrainPart)) :
    ∀ (c c₁ : Connectome) (nw : Dict Area (List Nat)),
      projectAll c l = some (c₁, nw) →
      ∀ k : BrainPart × BrainPart,
        (∀ a ∈ l.map Prod.fst, k.2 ≠ BrainPart.area a) →
        c₁.connections.find k = c.connections.find k := by
  induction l with
  | nil =>
      intro c c₁ nw h k _
      simp only [projectAll, Option.some.injEq, Prod.mk.injEq] at h
      rw [← h.1]
  | cons e rest ih =>
      intro c c₁ nw h k hk
      obtain ⟨a, srcs⟩ := e
      rw [projectAll_cons] at h
      cases hw : (project_into c a srcs).2 with
      | none => rw [hw] at h; simp at h
      | some w =>
          rw [hw] at h
          cases hr : projectAll (project_into c a srcs).1 rest with
          | none => rw [hr] at h; simp at h
          | some p =>
              obtain ⟨c'', nw'⟩ := p
              rw [hr] at h
              simp only [Option.some.injEq, Prod.mk.injEq] at h
              have h1 : c'' = c₁ := h.1
              have hrest : ∀ b ∈ rest.map Prod.fst, k.2 ≠ BrainPart.area b :=
                fun b hb => hk b (by simp [hb])
              have hhead : k.2 ≠ BrainPart.area a := hk a (by simp)
              rw [← h1, ih _ _ _ hr k hrest, project_into_fst,
                  ensure_find_other c a srcs k hhead]

theorem projectAll_find_some (l : List (Area × List BrainPart)) :
    ∀ (c c₁ : Connectome) (nw : Dict Area (List Nat)),
      projectAll c l = some (c₁, nw) →
      ∀ (k : BrainPart × BrainPart) (v : Connection),
        c.connections.find k = some v → c₁.connections.find k = some v := by
  induction l with
  | nil =>
      intro c c₁ nw h k v hv
      simp only [projectAll, Option.some.injEq, Prod.mk.injEq] at h
      rw [← h.1]; exact hv
  | cons e rest ih =>
      intro c c₁ nw h k v hv
      obtain ⟨a, srcs⟩ := e
      rw [projectAll_cons] at h
      cases hw : (project_into c a srcs).2 with
      | none => rw [hw] at h; simp at h
      | some w =>
          rw [hw] at h
          cases hr : projectAll (project_into c a srcs).1 rest with
          | none => rw [hr] at h; simp at h
          | some p =>
              obtain ⟨c'', nw'⟩ := p
              rw [hr] at h
              simp only [Option.some.injEq, Prod.mk.injEq] at h
              refine h.1 ▸ ih _ _ _ hr k v ?_
              rw [project_into_fst]
              exact ensure_find_some c a srcs k v hv

theorem projectAll_sources_isSome (l : List (Area × List BrainPart)) :
    ∀ (c c₁ : Connectome) (nw : Dict Area (List Nat)),
      projectAll c l = some (c₁, nw) →
      ∀ (a : Area) (srcs : List BrainPart) (p : BrainPart),
        (a, srcs) ∈ l → p ∈ srcs →
        (c₁.connections.find (p, .area a)).isSome := by
  induction l with
  | nil => intro c c₁ nw _ a srcs p hmem; simp at hmem
  | cons e rest ih =>
      intro c c₁ nw h a srcs p hmem hp
      obtain ⟨a₀, srcs₀⟩ := e
      rw [projectAll_cons] at h
      cases hw : (project_into c a₀ srcs₀).2 with
      | none => rw [hw] at h; simp at h
      | some w =>
          rw [hw] at h
          cases hr : projectAll (project_into c a₀ srcs₀).1 rest with
          | none => rw [hr] at h; simp at h
          | some q =>
              obtain ⟨c'', nw'⟩ := q
              rw [hr] at h
              simp only [Option.some.injEq, Prod.mk.injEq] at h
              rcases List.mem_cons.mp hmem with he | he
              · obtain ⟨ha, hs⟩ := Prod.mk.injEq .. ▸ he
                subst ha; subst hs
                have hbase : ((project_into c a srcs).1.connections.find
                    (p, BrainPart.area a)).isSome := by
                  rw [project_into_fst]
                  exact ensure_sources_isSome c a srcs p hp
                cases hv : (project_into c a srcs).1.connections.find
                    (p, BrainPart.area a) with
                | none => rw [hv] at hbase; simp at hbase
                | some v =>
                    have hsome := projectAll_find_some rest _ _ _ hr
                      (p, BrainPart.area a) v hv
                    rw [← h.1, hsome]; rfl
              · exact h.1 ▸ ih _ _ _ hr a srcs p he hp

theorem projectAll_purity (l : List (Area × List BrainPart)) :
    ∀ (c c₁ : Connectome) (nw : Dict Area (List Nat)),
      (l.map Prod.fst).Nodup →
      projectAll c l = some (c₁, nw) →
      ∀ (a : Area) (srcs : List BrainPart), (a, srcs) ∈ l →
        nw.find a = (project_into c a srcs).2 := by
  induction l with
  | nil => intro c c₁ nw _ _ a srcs hmem; simp at hmem
  | cons e rest ih =>
      intro c c₁ nw hnd h a srcs hmem
      obtain ⟨a₀, srcs₀⟩ := e
      rw [projectAll_cons] at h
      cases hw : (project_into c a₀ srcs₀).2 with
      | none => rw [hw] at h; simp at h
      | some w =>
          rw [hw] at h
          cases hr : projectAll (project_into c a₀ srcs₀).1 rest with
          | none => rw [hr] at h; simp at h
          | some q =>
              obtain ⟨c'', nw'⟩ := q
              rw [hr] at h
              simp only [Option.some.injEq, Prod.mk.injEq] at h
              rcases List.mem_cons.mp hmem with he | he
              · obtain ⟨ha, hs⟩ := Prod.mk.injEq .. ▸ he
                subst ha; subst hs
                rw [← h.2, hw]
                simp [Dict.find]
              · have ha₀ : a ≠ a₀ := by
                  intro haa
                  subst haa
                  have hmm : a ∈ rest.map Prod.fst :=
                    List.mem_map_of_mem Prod.fst he
                  simp only [List.map_cons, List.nodup_cons] at hnd
                  exact hnd.1 hmm
                have hnd' : (rest.map Prod.fst).Nodup := by
                  simp only [List.map_cons, List.nodup_cons] at hnd
                  exact hnd.2
                have hrec := ih _ _ _ hnd' hr a srcs he
                rw [← h.2]
                have ha₀' : a₀ ≠ a := fun hx => ha₀ hx.symm
                have hfind : (Dict.find ((a₀, w) :: nw') a) = nw'.find a := by
                  simp [Dict.find, ha₀']
                rw [hfind, hrec]
                refine project_into_snd_congr a srcs ?_ ?_ ?_ ?_
                · rw [project_into_fst]
                  exact (ensure_sameButConn c a₀ srcs₀).2.1
                · rw [project_into_fst]
                  exact (ensure_sameButConn c a₀ srcs₀).2.2.1
                · rw [project_into_fst]
                  exact (ensure_sameButConn c a₀ srcs₀).2.2.2.2.2.1
                · intro p
                  rw [project_into_fst]
                  refine ensure_find_other c a₀ srcs₀ (p, BrainPart.area a) ?_
                  simp only [ne_eq, BrainPart.area.injEq]
                  exact ha₀

theorem activeOf_congr {c d : Connectome} (h : d.winners = c.winners)
    (p : BrainPart) : activeOf d p = activeOf c p := by
  cases p <;> simp [activeOf, h]

theorem plastMult_zero (β : ℚ) (act win : List Nat) (f : Nat → Nat → ℚ) :
    plastMult β act win 0 f = f := by
  funext i j
  simp [plastMult]

theorem plastMult_cons (β : ℚ) (act win : List Nat) (m : Nat)
    (f : Nat → Nat → ℚ) :
    plastMult β act win m
      (fun i j => if i ∈ act ∧ j ∈ win then f i j * (1 + β) else f i j) =
    plastMult β act win (m + 1) f := by
  funext i j
  by_cases hij : i ∈ act ∧ j ∈ win
  · simp only [plastMult, if_pos hij, pow_succ]
    ring
  · simp only [plastMult, if_neg hij]

theorem plastApply_sameButConn (a : Area) (win : List Nat) (c : Connectome)
    (src : BrainPart) : sameButConn c (plastApply a win c src) :=
  ⟨rfl, rfl, rfl, rfl, rfl, rfl, rfl⟩

theorem plastApply_find_ne (a : Area) (win : List Nat) (c : Connectome)
    (src : BrainPart) (k : BrainPart × BrainPart)
    (h : k ≠ (src, BrainPart.area a)) :
    (plastApply a win c src).connections.find k = c.connections.find k := by
  simp only [plastApply]
  exact Dict.find_set_ne _ _ _ _ (fun hh => h hh.symm)

theorem plastApply_find_self (a : Area) (win : List Nat) (c : Connectome)
    (src : BrainPart) (conn : Connection)
    (h : c.connections.find (src, .area a) = some conn) :
    (plastApply a win c src).connections.find (src, .area a) =
      some { beta := conn.beta,
             synapses := fun i j =>
               if i ∈ activeOf c src ∧ j ∈ win then
                 conn.synapses i j * (1 + conn.beta)
               else conn.synapses i j } := by
  simp only [plastApply, connAt, h, Option.getD_some]
  exact Dict.find_set_self _ _ _

theorem plastFold_sameButConn (a : Area) (win : List Nat)
    (srcs : List BrainPart) :
    ∀ c : Connectome, sameButConn c (srcs.foldl (plastApply a win) c) := by
  induction srcs with
  | nil => intro c; exact sameButConn_refl c
  | cons q rest ih =>
      intro c
      rw [List.foldl_cons]
      exact sameButConn_trans (plastApply_sameButConn a win c q) (ih _)

theorem plastFold_find_other (a : Area) (win : List Nat)
    (srcs : List BrainPart) :
    ∀ (c : Connectome) (k : BrainPart × BrainPart), k.2 ≠ BrainPart.area a →
      ((srcs.foldl (plastApply a win) c).connections.find k) =
        c.connections.find k := by
  induction srcs with
  | nil => intro c k _; rfl
  | cons q rest ih =>
      intro c k hk
      rw [List.foldl_cons, ih _ k hk, plastApply_find_ne]
      intro hh
      exact hk (by rw [hh])

theorem plastFold_find_not_src (a : Area) (win : List Nat)
    (srcs : List BrainPart) :
    ∀ (c : Connectome) (p : BrainPart), p ∉ srcs →
      ((srcs.foldl (plastApply a win) c).connections.find (p, .area a)) =
        c.connections.find (p, .area a) := by
  induction srcs with
  | nil => intro c p _; rfl
  | cons q rest ih =>
      intro c p hp
      rw [List.foldl_cons, ih _ p (fun hh => hp (List.mem_cons_of_mem _ hh)),
          plastApply_find_ne]
      intro hh
      obtain ⟨h1, _⟩ := Prod.mk.injEq .. ▸ hh
      exact hp (h1 ▸ List.mem_cons_self q rest)

theorem plastFold_find (a : Area) (win : List Nat) (srcs : List BrainPart) :
    ∀ (c : Connectome) (p : BrainPart) (conn : Connection),
      c.connections.find (p, .area a) = some conn →
      ((srcs.foldl (plastApply a win) c).connections.find (p, .area a)) =
        some { beta := conn.beta,
               synapses := plastMult conn.beta (activeOf c p) win
                 (srcs.count p) conn.synapses } := by
  induction srcs with
  | nil =>
      intro c p conn h
      rw [List.foldl_nil, h, List.count_nil, plastMult_zero]
  | cons q rest ih =>
      intro c p conn h
      rw [List.foldl_cons]
      by_cases hq : q = p
      · subst hq
        have hstep := plastApply_find_self a win c q conn h
        have hres := ih (plastApply a win c q) q _ hstep
        rw [hres]
        have hw : (plastApply a win c q).winners = c.winners := rfl
        rw [activeOf_congr hw, plastMult_cons, List.count_cons_self]
      · have hne : (p, BrainPart.area a) ≠ (q, BrainPart.area a) := by
          simp only [ne_eq, Prod.mk.injEq, not_and]
          intro hh
          exact absurd hh.symm hq
        have hpres : (plastApply a win c q).connections.find (p, .area a) =
            some conn := by
          rw [plastApply_find_ne a win c q _ hne]
          exact h
        have hres := ih (plastApply a win c q) p conn hpres
        rw [hres]
        have hw : (plastApply a win c q).winners = c.winners := rfl
        rw [activeOf_congr hw, List.count_cons_of_ne (fun hh => hq hh.symm)]

theorem plastOuter_sameButConn (nw : Dict Area (List Nat)) :
    ∀ (c : Connectome) (sm : Dict Area (List BrainPart)),
      sameButConn c (nw.foldl (fun c anw =>
        ((sm.find anw.1).getD []).foldl (plastApply anw.1 anw.2) c) c) := by
  induction nw with
  | nil => intro c _; exact sameButConn_refl c
  | cons e rest ih =>
      intro c sm
      rw [List.foldl_cons]
      exact sameButConn_trans (plastFold_sameButConn e.1 e.2 _ c) (ih _ sm)

theorem plastOuter_find_frame (nw : Dict Area (List Nat)) :
    ∀ (c : Connectome) (sm : Dict Area (List BrainPart))
      (k : BrainPart × BrainPart),
      (∀ a ∈ nw.map Prod.fst, k.2 ≠ BrainPart.area a) →
      ((nw.foldl (fun c anw =>
          ((sm.find anw.1).getD []).foldl (plastApply anw.1 anw.2) c)
          c).connections.find k) = c.connections.find k := by
  induction nw with
  | nil => intro c _ k _; rfl
  | cons e rest ih =>
      intro c sm k hk
      rw [List.foldl_cons, ih _ sm k (fun a ha => hk a (by simp [ha])),
          plastFold_find_other e.1 e.2 _ c k (hk e.1 (by simp))]

theorem plastOuter_find (nw : Dict Area (List Nat)) :
    ∀ (c : Connectome) (sm : Dict Area (List BrainPart)) (a : Area)
      (p : BrainPart) (conn : Connection) (win : List Nat),
      (nw.map Prod.fst).Nodup →
      nw.find a = some win →
      c.connections.find (p, .area a) = some conn →
      ((nw.foldl (fun c anw =>
          ((sm.find anw.1).getD []).foldl (plastApply anw.1 anw.2) c)
          c).connections.find (p, .area a)) =
        some { beta := conn.beta,
               synapses := plastMult conn.beta (activeOf c p) win
                 (((sm.find a).getD []).count p) conn.synapses } := by
  induction nw with
  | nil => intro c sm a p conn win _ hwin _; simp [Dict.find] at hwin
  | cons e rest ih =>
      intro c sm a p conn win hnd hwin hconn
      obtain ⟨a₀, win₀⟩ := e
      rw [List.foldl_cons]
      by_cases ha : a₀ = a
      · subst ha
        have hwin₀ : win₀ = win := by
          simp [Dict.find] at hwin
          exact hwin
        subst hwin₀
        have hinner := plastFold_find a₀ win₀ ((sm.find a₀).getD []) c p conn hconn
        have hout : a₀ ∉ rest.map Prod.fst := by
          simp only [List.map_cons, List.nodup_cons] at hnd
          exact hnd.1
        rw [plastOuter_find_frame rest _ sm (p, BrainPart.area a₀)
              (fun a' ha' => by
                simp only [ne_eq, BrainPart.area.injEq]
                intro hh
                exact hout (hh ▸ ha'))]
        exact hinner
      · have hwin' : Dict.find rest a = some win := by
          simpa [Dict.find, ha] using hwin
        have hnd' : (rest.map Prod.fst).Nodup := by
          simp only [List.map_cons, List.nodup_cons] at hnd
          exact hnd.2
        have hpres : ((((sm.find a₀).getD []).foldl (plastApply a₀ win₀)
            c).connections.find (p, .area a)) = some conn := by
          rw [plastFold_find_other a₀ win₀ _ c (p, BrainPart.area a)
                (by simp only [ne_eq, BrainPart.area.injEq]; exact fun hh => ha hh.symm)]
          exact hconn
        have hres := ih _ sm a p conn win hnd' hwin' hpres
        rw [hres, activeOf_congr (plastFold_sameButConn a₀ win₀ _ c).2.2.2.2.2.1]

theorem update_connectomes_disabled (c : Connectome) (nw : Dict Area (List Nat))
    (sm : Dict Area (List BrainPart)) (h : c.plasticityDisabled = true) :
    update_connectomes c nw sm = c := by
  simp [update_connectomes, h]

theorem update_connectomes_enabled (c : Connectome) (nw : Dict Area (List Nat))
    (sm : Dict Area (List BrainPart)) (h : c.plasticityDisabled = false) :
    update_connectomes c nw sm =
      nw.foldl (fun c anw =>
        ((sm.find anw.1).getD []).foldl (plastApply anw.1 anw.2) c) c := by
  simp [update_connectomes, h]

theorem update_connectomes_sameButConn (c : Connectome)
    (nw : Dict Area (List Nat)) (sm : Dict Area (List BrainPart)) :
    sameButConn c (update_connectomes c nw sm) := by
  cases h : c.plasticityDisabled with
  | true => rw [update_connectomes_disabled c nw sm h]; exact sameButConn_refl c
  | false => rw [update_connectomes_enabled c nw sm h]; exact plastOuter_sameButConn nw c sm

theorem update_connectomes_find_frame (c : Connectome)
    (nw : Dict Area (List Nat)) (sm : Dict Area (List BrainPart))
    (k : BrainPart × BrainPart)
    (h : ∀ a ∈ nw.map Prod.fst, k.2 ≠ BrainPart.area a) :
    (update_connectomes c nw sm).connections.find k = c.connections.find k := by
  cases hpl : c.plasticityDisabled with
  | true => rw [update_connectomes_disabled c nw sm hpl]
  | false =>
      rw [update_connectomes_enabled c nw sm hpl]
      exact plastOuter_find_frame nw c sm k h

theorem update_connectomes_find (c : Connectome) (nw : Dict Area (List Nat))
    (sm : Dict Area (List BrainPart)) (a : Area) (p : BrainPart)
    (conn : Connection) (win : List Nat)
    (hpl : c.plasticityDisabled = false)
    (hnd : (nw.map Prod.fst).Nodup)
    (hwin : nw.find a = some win)
    (hconn : c.connections.find (p, .area a) = some conn) :
    (update_connectomes c nw sm).connections.find (p, .area a) =
      some { beta := conn.beta,
             synapses := plastMult conn.beta (activeOf c p) win
               (((sm.find a).getD []).count p) conn.synapses } := by
  rw [update_connectomes_enabled c nw sm hpl]
  exact plastOuter_find nw c sm a p conn win hnd hwin hconn

theorem winnersFold_connections (nw : Dict Area (List Nat)) (l : List Area) :
    ∀ c : Connectome,
      ((l.foldl (fun c a =>
        { c with winners := fun a' =>
            if a' = a then (nw.find a).getD [] else c.winners a' }) c).connections) =
        c.connections := by
  induction l with
  | nil => intro c; rfl
  | cons a₀ rest ih => intro c; rw [List.foldl_cons, ih]

theorem winnersFold_winners_not_mem (nw : Dict Area (List Nat)) (l : List Area) :
    ∀ (c : Connectome) (a : Area), a ∉ l →
      ((l.foldl (fun c a =>
        { c with winners := fun a' =>
            if a' = a then (nw.find a).getD [] else c.winners a' }) c).winners a) =
        c.winners a := by
  induction l with
  | nil => intro c a _; rfl
  | cons a₀ rest ih =>
      intro c a ha
      rw [List.foldl_cons, ih _ a (fun hh => ha (List.mem_cons_of_mem _ hh))]
      have hne : a ≠ a₀ := fun hh => ha (hh ▸ List.mem_cons_self a₀ rest)
      simp [hne]

theorem winnersFold_winners_mem (nw : Dict Area (List Nat)) (l : List Area) :
    ∀ (c : Connectome) (a : Area), l.Nodup → a ∈ l →
      ((l.foldl (fun c a =>
        { c with winners := fun a' =>
            if a' = a then (nw.find a).getD [] else c.winners a' }) c).winners a) =
        (nw.find a).getD [] := by
  induction l with
  | nil => intro c a _ ha; simp at ha
  | cons a₀ rest ih =>
      intro c a hnd ha
      rw [List.foldl_cons]
      rcases List.mem_cons.mp ha with he | he
      · subst he
        rw [winnersFold_winners_not_mem nw rest _ a (List.nodup_cons.mp hnd).1]
        simp
      · exact ih _ a (List.nodup_cons.mp hnd).2 he

theorem update_winners_connections (c : Connectome) (nw : Dict Area (List Nat))
    (sm : Dict Area (List BrainPart)) :
    (update_winners c nw sm).connections = c.connections :=
  winnersFold_connections nw sm.keys c

theorem update_winners_winners_mem (c : Connectome) (nw : Dict Area (List Nat))
    (sm : Dict Area (List BrainPart)) (a : Area)
    (hnd : sm.keys.Nodup) (ha : a ∈ sm.keys) :
    (update_winners c nw sm).winners a = (nw.find a).getD [] :=
  winnersFold_winners_mem nw sm.keys c a hnd ha

theorem update_winners_winners_not_mem (c : Connectome)
    (nw : Dict Area (List Nat)) (sm : Dict Area (List BrainPart)) (a : Area)
    (ha : a ∉ sm.keys) :
    (update_winners c nw sm).winners a = c.winners a :=
  winnersFold_winners_not_mem nw sm.keys c a ha

theorem sm_set_pres (m : Dict Area (List BrainPart)) (b a : Area)
    (p q : BrainPart)
    (h : ∃ srcs, m.find a = some srcs ∧ q ∈ srcs) :
    ∃ srcs, ((m.set b ((m.find b).getD [] ++ [p])).find a) = some srcs ∧
      q ∈ srcs := by
  obtain ⟨srcs, hf, hq⟩ := h
  by_cases hb : b = a
  · subst hb
    refine ⟨srcs ++ [p], ?_, List.mem_append_left _ hq⟩
    rw [hf]
    simpa using Dict.find_set_self m b (srcs ++ [p])
  · exact ⟨srcs, by rw [Dict.find_set_ne _ _ _ _ hb]; exact hf, hq⟩

theorem smInner_pres (p : BrainPart) (l : List Area) :
    ∀ (m : Dict Area (List BrainPart)) (a : Area) (q : BrainPart),
      (∃ srcs, m.find a = some srcs ∧ q ∈ srcs) →
      ∃ srcs, ((l.foldl (fun m a => m.set a ((m.find a).getD [] ++ [p])) m).find a) =
        some srcs ∧ q ∈ srcs := by
  induction l with
  | nil => intro m a q h; exact h
  | cons b rest ih =>
      intro m a q h
      rw [List.foldl_cons]
      exact ih _ a q (sm_set_pres m b a p q h)

theorem smInner_mem (p : BrainPart) (l : List Area) :
    ∀ (m : Dict Area (List BrainPart)) (a : Area), a ∈ l →
      ∃ srcs, ((l.foldl (fun m a => m.set a ((m.find a).getD [] ++ [p])) m).find a) =
        some srcs ∧ p ∈ srcs := by
  induction l with
  | nil => intro m a ha; simp at ha
  | cons b rest ih =>
      intro m a ha
      rw [List.foldl_cons]
      rcases List.mem_cons.mp ha with he | he
      · subst he
        refine smInner_pres p rest _ a p ?_
        exact ⟨(m.find a).getD [] ++ [p], Dict.find_set_self _ _ _,
          List.mem_append_right _ (List.mem_singleton_self p)⟩
      · exact ih _ a he

theorem smOuter_pres (req : Req) :
    ∀ (m : Dict Area (List BrainPart)) (a : Area) (q : BrainPart),
      (∃ srcs, m.find a = some srcs ∧ q ∈ srcs) →
      ∃ srcs, ((req.foldl (fun m pa =>
          pa.2.foldl (fun m a => m.set a ((m.find a).getD [] ++ [pa.1])) m) m).find a) =
        some srcs ∧ q ∈ srcs := by
  induction req with
  | nil => intro m a q h; exact h
  | cons pa rest ih =>
      intro m a q h
      rw [List.foldl_cons]
      exact ih _ a q (smInner_pres pa.1 pa.2 m a q h)

theorem sources_mapping_mem (req : Req) :
    ∀ (p : BrainPart) (ds : List Area) (a : Area), (p, ds) ∈ req → a ∈ ds →
      ∃ srcs, (sources_mapping req).find a = some srcs ∧ p ∈ srcs := by
  have main : ∀ (req : Req) (m : Dict Area (List BrainPart)) (p : BrainPart)
      (ds : List Area) (a : Area), (p, ds) ∈ req → a ∈ ds →
      ∃ srcs, ((req.foldl (fun m pa =>
          pa.2.foldl (fun m a => m.set a ((m.find a).getD [] ++ [pa.1])) m) m).find a) =
        some srcs ∧ p ∈ srcs := by
    intro req
    induction req with
    | nil => intro m p ds a hm _; simp at hm
    | cons pa rest ih =>
        intro m p ds a hm ha
        rw [List.foldl_cons]
        rcases List.mem_cons.mp hm with he | he
        · obtain ⟨h1, h2⟩ := Prod.mk.injEq .. ▸ he
          subst h1
          subst h2
          exact smOuter_pres rest _ a pa.1 (smInner_mem pa.1 pa.2 m a ha)
        · exact ih _ p ds a he ha
  exact fun p ds a hm ha => main req [] p ds a hm ha

theorem smInner_keys_mem (p : BrainPart) (l : List Area) :
    ∀ (m : Dict Area (List BrainPart)) (a : Area),
      a ∈ ((l.foldl (fun m a => m.set a ((m.find a).getD [] ++ [p])) m)).keys ↔
        a ∈ m.keys ∨ a ∈ l := by
  induction l with
  | nil => intro m a; simp
  | cons b rest ih =>
      intro m a
      rw [List.foldl_cons, ih]
      rw [Dict.mem_keys_set]
      constructor
      · rintro ((h | h) | h)
        · exact Or.inl h
        · exact Or.inr (h ▸ List.mem_cons_self b rest)
        · exact Or.inr (List.mem_cons_of_mem _ h)
      · rintro (h | h)
        · exact Or.inl (Or.inl h)
        · rcases List.mem_cons.mp h with he | he
          · exact Or.inl (Or.inr he)
          · exact Or.inr he

theorem sources_mapping_keys_mem (req : Req) (a : Area) :
    a ∈ (sources_mapping req).keys ↔ ∃ pa ∈ req, a ∈ pa.2 := by
  have main : ∀ (req : Req) (m : Dict Area (List BrainPart)),
      a ∈ ((req.foldl (fun m pa =>
        pa.2.foldl (fun m a => m.set a ((m.find a).getD [] ++ [pa.1])) m) m)).keys ↔
      a ∈ m.keys ∨ ∃ pa ∈ req, a ∈ pa.2 := by
    intro req
    induction req with
    | nil => intro m; simp
    | cons pa rest ih =>
        intro m
        rw [List.foldl_cons, ih, smInner_keys_mem]
        constructor
        · rintro ((h | h) | h)
          · exact Or.inl h
          · exact Or.inr ⟨pa, List.mem_cons_self pa rest, h⟩
          · obtain ⟨pb, hpb, hab⟩ := h
            exact Or.inr ⟨pb, List.mem_cons_of_mem _ hpb, hab⟩
        · rintro (h | h)
          · exact Or.inl (Or.inl h)
          · obtain ⟨pb, hpb, hab⟩ := h
            rcases List.mem_cons.mp hpb with he | he
            · exact Or.inl (Or.inr (he ▸ hab))
            · exact Or.inr ⟨pb, he, hab⟩
  simp only [sources_mapping]
  rw [main req []]
  simp [Dict.keys]

theorem smInner_nodup (p : BrainPart) (l : List Area) :
    ∀ m : Dict Area (List BrainPart), m.keys.Nodup →
      ((l.foldl (fun m a => m.set a ((m.find a).getD [] ++ [p])) m)).keys.Nodup := by
  induction l with
  | nil => intro m h; exact h
  | cons b rest ih =>
      intro m h
      rw [List.foldl_cons]
      exact ih _ (Dict.keys_set_nodup m b _ h)

theorem sources_mapping_keys_nodup (req : Req) :
    (sources_mapping req).keys.Nodup := by
  have main : ∀ (req : Req) (m : Dict Area (List BrainPart)), m.keys.Nodup →
      ((req.foldl (fun m pa =>
        pa.2.foldl (fun m a => m.set a ((m.find a).getD [] ++ [pa.1])) m) m)).keys.Nodup := by
    intro req
    induction req with
    | nil => intro m h; exact h
    | cons pa rest ih =>
        intro m h
        rw [List.foldl_cons]
        exact ih _ (smInner_nodup pa.1 pa.2 m h)
  exact main req [] (by simp [Dict.keys])

theorem fire_eq (c : Connectome) (req : Req) (c1 : Connectome)
    (nw : Dict Area (List Nat))
    (h : projectAll c (sources_mapping req) = some (c1, nw)) :
    fire c req = some (update_winners
      (update_connectomes c1 nw (sources_mapping req)) nw
      (sources_mapping req)) := by
  simp only [fire, h]

theorem fire_inv (c : Connectome) (req : Req) (c' : Connectome)
    (h : fire c req = some c') :
    ∃ (c1 : Connectome) (nw : Dict Area (List Nat)),
      projectAll c (sources_mapping req) = some (c1, nw) ∧
      c' = update_winners (update_connectomes c1 nw (sources_mapping req)) nw
        (sources_mapping req) := by
  cases hp : projectAll c (sources_mapping req) with
  | none => simp only [fire, hp] at h; simp at h
  | some pr =>
      obtain ⟨c1, nw⟩ := pr
      simp only [fire, hp, Option.some.injEq] at h
      exact ⟨c1, nw, rfl, h.symm⟩

theorem argsort_perm (v : List ℚ) :
    List.Perm (argsort v) (List.range v.length) :=
  List.perm_insertionSort _ _

theorem argsort_length (v : List ℚ) : (argsort v).length = v.length := by
  rw [(argsort_perm v).length_eq, List.length_range]

theorem argsort_nodup (v : List ℚ) : (argsort v).Nodup :=
  ((argsort_perm v).nodup_iff).mpr (List.nodup_range _)

theorem argsort_mem_lt (v : List ℚ) (i : Nat) (h : i ∈ argsort v) :
    i < v.length :=
  List.mem_range.mp ((argsort_perm v).mem_iff.mp h)

theorem topK_eq_some (v : List ℚ) (k : Nat) (w : List Nat)
    (h : topK v k = some w) :
    w = (argsort v).drop (v.length - k) ∧ 1 ≤ k := by
  by_cases hc : 1 ≤ k ∧ k ≤ 2 * v.length
  · rw [topK, if_pos hc] at h
    simp only [Option.some.injEq] at h
    exact ⟨h.symm, hc.1⟩
  · rw [topK, if_neg hc] at h
    cases h

theorem topK_length (v : List ℚ) (k : Nat) (w : List Nat)
    (h : topK v k = some w) : w.length = min k v.length := by
  obtain ⟨hw, _⟩ := topK_eq_some v k w h
  rw [hw, List.length_drop, argsort_length]
  omega

theorem topK_nodup (v : List ℚ) (k : Nat) (w : List Nat)
    (h : topK v k = some w) : w.Nodup := by
  obtain ⟨hw, _⟩ := topK_eq_some v k w h
  rw [hw]
  exact (argsort_nodup v).sublist (List.drop_sublist _ _)

theorem topK_mem_lt (v : List ℚ) (k : Nat) (w : List Nat) (i : Nat)
    (h : topK v k = some w) (hi : i ∈ w) : i < v.length := by
  obtain ⟨hw, _⟩ := topK_eq_some v k w h
  exact argsort_mem_lt v i (List.mem_of_mem_drop (hw ▸ hi))

theorem inputVector_length (c : Connectome) (a : Area)
    (srcs : List BrainPart) : (inputVector c a srcs).length = a.n := by
  simp [inputVector]

theorem nw_keys_nodup (c : Connectome) (req : Req) (c1 : Connectome)
    (nw : Dict Area (List Nat))
    (hpa : projectAll c (sources_mapping req) = some (c1, nw)) :
    (nw.map Prod.fst).Nodup := by
  rw [projectAll_keys _ _ _ _ hpa]
  exact sources_mapping_keys_nodup req

theorem update_connectomes_isSome_mono (c : Connectome)
    (nw : Dict Area (List Nat)) (sm : Dict Area (List BrainPart))
    (k : BrainPart × BrainPart)
    (hnd : (nw.map Prod.fst).Nodup)
    (h : (c.connections.find k).isSome) :
    ((update_connectomes c nw sm).connections.find k).isSome := by
  cases hpl : c.plasticityDisabled with
  | true => rw [update_connectomes_disabled c nw sm hpl]; exact h
  | false =>
      obtain ⟨p, b⟩ := k
      cases b with
      | stim s =>
          rw [update_connectomes_find_frame c nw sm (p, .stim s) (by simp)]
          exact h
      | area a =>
          cases hconn : c.connections.find (p, BrainPart.area a) with
          | none => rw [hconn] at h; simp at h
          | some conn =>
              cases hnwa : nw.find a with
              | none =>
                  have hnm : a ∉ nw.map Prod.fst := by
                    intro hmem
                    have := (Dict.find_isSome_iff_mem_keys nw a).mpr hmem
                    rw [hnwa] at this
                    simp at this
                  rw [update_connectomes_find_frame c nw sm (p, BrainPart.area a)
                        (fun a' ha' => by
                          simp only [ne_eq, BrainPart.area.injEq]
                          intro hh
                          exact hnm (hh ▸ ha'))]
                  exact h
              | some win =>
                  rw [update_connectomes_find c nw sm a p conn win hpl hnd hnwa hconn]
                  rfl

theorem foldl_add_replicate {α : Type} (g : α → ℚ) (x : α) (n : Nat) :
    ∀ rest : ℚ,
      (List.replicate n x).foldl (fun acc y => acc + g y) rest =
        rest + n * g x := by
  induction n with
  | zero => intro rest; simp
  | succ n ih =>
      intro rest
      rw [List.replicate_succ, List.foldl_cons, ih]
      push_cast
      ring

theorem ensure_noop (c : Connectome) (a : Area) (srcs : List BrainPart)
    (h : ∀ q ∈ srcs, (c.connections.find (q, .area a)).isSome) :
    ensureConnections c a srcs = c := by
  induction srcs with
  | nil => rfl
  | cons q rest ih =>
      rw [ensure_cons, if_pos (h q (List.mem_cons_self q rest))]
      exact ih (fun q' h' => h q' (List.mem_cons_of_mem _ h'))

theorem inputVector_replicate (c : Connectome) (a : Area) (p : BrainPart)
    (n : Nat) :
    inputVector c a (List.replicate n p) =
      (List.range a.n).map (fun j => (n : ℚ) * contrib c a p j) := by
  cases p with
  | area x =>
      simp only [inputVector, List.filterMap_replicate]
      refine List.map_congr_left ?_
      intro j _
      rw [foldl_add_replicate]
      simp [contrib]
  | stim s =>
      simp only [inputVector, List.filterMap_replicate]
      refine List.map_congr_left ?_
      intro j _
      rw [foldl_add_replicate]
      simp [contrib]

theorem sources_mapping_replicate_inner (p : BrainPart) (a : Area) :
    ∀ (n : Nat) (l : List BrainPart),
      ((List.replicate n a).foldl
        (fun (m : Dict Area (List BrainPart)) b =>
          m.set b ((m.find b).getD [] ++ [p])) [(a, l)]) =
        [(a, l ++ List.replicate n p)] := by
  intro n
  induction n with
  | zero => intro l; simp
  | succ n ih =>
      intro l
      rw [List.replicate_succ, List.foldl_cons]
      have hstep : (Dict.set [(a, l)] a ((Dict.find [(a, l)] a).getD [] ++ [p])) =
          [(a, l ++ [p])] := by
        simp [Dict.set, Dict.find]
      rw [hstep, ih, List.append_assoc, List.singleton_append,
          ← List.replicate_succ]

theorem sources_mapping_replicate (p : BrainPart) (a : Area) (n : Nat) :
    sources_mapping [(p, List.replicate (n + 1) a)] =
      [(a, List.replicate (n + 1) p)] := by
  simp only [sources_mapping, List.foldl_cons, List.foldl_nil]
  rw [List.replicate_succ, List.foldl_cons]
  have hstep : (Dict.set ([] : Dict Area (List BrainPart)) a
      ((Dict.find ([] : Dict Area (List BrainPart)) a).getD [] ++ [p])) =
      [(a, [p])] := by
    simp [Dict.set, Dict.find]
  rw [hstep, sources_mapping_replicate_inner p a n [p], List.singleton_append,
      ← List.replicate_succ]

end Connectome

/-! ## Claim theorems -/

open Connectome

/-- C1: the claim states that when two assemblies in a layer share a
parent, the parent's accumulated destination lists are extended across
siblings, so that for `B` with parents `A1` (area 101) and `A2`
(area 102), both fed by stimulus `S = 0`, `fire_many({B}, 103)` fires
the stimulus into both 101 and 102 in the same round.  Evaluating the
code at that input shows the opposite: because the layer-merge reads
`current_layer.get(ass, ...)` (keyed by the child) instead of the
parent's accumulated list, the second sibling overwrites the first, and
the stimulus round's destination list is `[102]` — area 101 never
receives the stimulus.  This contradicts the spec's §4.2/§8 and the
function's own documented parent-tree intent. -/
theorem fire_many_fan_in_loses_sibling_destination :
    fire_many fanInEnv 5 [3] 103 =
      some [[(PKey.stim 0, [102])],
            [(PKey.area 101, [103]), (PKey.area 102, [103])],
            [(PKey.area 103, [103])]] ∧
    (101 : Nat) ∉ [102] := by
  constructor
  · rfl
  · decide

/-- C2 (counterexample): the claim states that for the chain
stimulus `0` → assembly `1` (area 10) → assembly `2` (area 11),
`fire_many({2}, 11)` executes exactly two rounds, `{0: [10]}` then
`{10: [11]}`.  The code executes a third round `{11: [11]}` (one round
per layer, including the layer of the requested assembly itself), so
the round list is not the claimed two-round list. -/
theorem fire_many_chain_not_two_rounds :
    fire_many (chainEnv 10 11) 5 [2] 11 ≠
      some [[(PKey.stim 0, [10])], [(PKey.area 10, [11])]] := by
  decide

/-- C2 (amended): for the chain stimulus `0` → assembly `1` (owning area
`x`) → assembly `2` (owning area `y`), `fire_many({2}, y)` executes
exactly three rounds, in order: the stimulus into `x`, then area `x`
into `y`, then area `y` into `y` (the requested assembly's own layer is
also fired, into the target). -/
theorem fire_many_chain_three_rounds (x y : Nat) :
    fire_many (chainEnv x y) 5 [2] y =
      some [[(PKey.stim 0, [x])], [(PKey.area x, [y])], [(PKey.area y, [y])]] := by
  rfl

/-- C8: the claim states that every `Connection` held by the connectome
has an `Area` as its destination, that `add_stimulus(s)` gains exactly
the connections from `s` into each registered `Area`, and that no
registration ever creates a connection whose destination is a
`Stimulus`.  Evaluating the registration code shows otherwise:
`_initialize_parts` iterates `self.areas + self.stimuli` as the
destination argument of `_initialize_connection` — whose own docstring
and type annotation say the destination is an `Area` — so
`add_stimulus(s1)` on an empty connectome gains the single connection
`(s1, s1)` with a `Stimulus` destination, and a subsequent
`add_area(aY)` additionally gains `(aY, s1)`, again with a `Stimulus`
destination. -/
theorem registration_creates_stimulus_destination :
    (Connectome.add_stimulus c0 s1).connections.keys =
      [(.stim s1, .stim s1)] ∧
    (Connectome.add_area (Connectome.add_stimulus c0 s1) aY).connections.keys =
      [(.stim s1, .stim s1), (.area aY, .area aY),
       (.area aY, .stim s1), (.stim s1, .area aY)] := by
  constructor
  · decide
  · decide

/-- C3 (counterexample): the claim states that a fire request referencing
a part never registered fails fast and does not silently create a
connection for the unregistered pair.  On the connectome `cA` (only area
`aY` registered, no stimuli, no connections), firing the never-registered
stimulus `sU` into `aY` succeeds and silently creates the connection
`(sU, aY)` (connectome.py lines 131–133). -/
theorem fire_unregistered_silently_creates_connection :
    cA.stimuli = [] ∧ cA.connections.keys = [] ∧
    (Connectome.fire cA [(.stim sU, [aY])]).map (fun c => c.connections.keys) =
      some [(.stim sU, .area aY)] := by
  refine ⟨rfl, rfl, ?_⟩
  decide

/-- C3 (amended): a fire request referencing a `(part, area)` pair with
no existing Connection — registered or not — does not fail on that
account: the engine silently creates the missing Connection lazily
before use, so after a successful call every pair used by the request
has a Connection. -/
theorem fire_lazily_creates_used_connections (c : Connectome)
    (req : Connectome.Req) (c' : Connectome) (p : BrainPart)
    (ds : List Area) (a : Area)
    (hfire : Connectome.fire c req = some c')
    (hreq : (p, ds) ∈ req) (ha : a ∈ ds) :
    (c'.connections.find (p, .area a)).isSome := by
  obtain ⟨c1, nw, hpa, hc'⟩ := fire_inv c req c' hfire
  obtain ⟨srcs, hsm, hp⟩ := sources_mapping_mem req p ds a hreq ha
  have hmem : (a, srcs) ∈ sources_mapping req := Dict.find_mem _ _ _ hsm
  have h1 : (c1.connections.find (p, .area a)).isSome :=
    projectAll_sources_isSome _ _ _ _ hpa a srcs p hmem hp
  have h2 : (((update_connectomes c1 nw (sources_mapping req)).connections.find
      (p, .area a))).isSome :=
    update_connectomes_isSome_mono c1 nw _ _ (nw_keys_nodup c req c1 nw hpa) h1
  rw [hc', update_winners_connections]
  exact h2

/-- C3 (amended) witness: on `cA`, firing the unregistered stimulus `sU`
into `aY` succeeds, and the used pair has a Connection afterwards. -/
theorem fire_lazily_creates_used_connections_witness :
    Connectome.fire cA [(.stim sU, [aY])] =
      some ((Connectome.fire cA [(.stim sU, [aY])]).getD cA) ∧
    (((Connectome.fire cA [(.stim sU, [aY])]).getD cA).connections.find
      (.stim sU, .area aY)).isSome := by
  refine ⟨rfl, ?_⟩
  exact fire_lazily_creates_used_connections cA [(.stim sU, [aY])] _
    (.stim sU) [aY] aY rfl (List.mem_singleton_self _) (List.mem_singleton_self _)

/-- C4: within a single fire call the update order is strict.  Whenever
the projection phase succeeds: the call commits exactly the
projection → plasticity → winner-overwrite pipeline; the state that the
plasticity phase reads still carries the pre-call winner sets (so every
Area source's active-neuron reference is its pre-call winner set, even
when that source is itself a destination of the round); the plasticity
phase itself changes no winner set; and each touched area's new winners
are `_project_into` evaluated on the pre-call connectome — a pure
function of the pre-call winner sets and weights. -/
theorem fire_update_order (c : Connectome) (req : Connectome.Req)
    (c1 : Connectome) (nw : Dict Area (List Nat))
    (hpa : Connectome.projectAll c (Connectome.sources_mapping req) =
      some (c1, nw)) :
    Connectome.fire c req = some (update_winners
      (update_connectomes c1 nw (sources_mapping req)) nw
      (sources_mapping req)) ∧
    c1.winners = c.winners ∧
    (update_connectomes c1 nw (sources_mapping req)).winners = c.winners ∧
    (∀ (a : Area) (srcs : List BrainPart),
      (a, srcs) ∈ Connectome.sources_mapping req →
      nw.find a = (Connectome.project_into c a srcs).2) := by
  refine ⟨fire_eq c req c1 nw hpa, ?_, ?_, ?_⟩
  · exact (projectAll_sameButConn _ _ _ _ hpa).2.2.2.2.2.1
  · rw [(update_connectomes_sameButConn c1 nw _).2.2.2.2.2.1]
    exact (projectAll_sameButConn _ _ _ _ hpa).2.2.2.2.2.1
  · intro a srcs hmem
    exact projectAll_purity _ _ _ _ (sources_mapping_keys_nodup req) hpa a srcs hmem

/-- C4 witness: the projection phase succeeds on `cW` with the request
firing `sW` into `aW`, with new winners `[0]`. -/
theorem fire_update_order_witness :
    Connectome.projectAll cW (Connectome.sources_mapping reqW) =
      some (cW, [(aW, [0])]) ∧
    (Connectome.fire cW reqW = some (update_winners
      (update_connectomes cW [(aW, [0])] (sources_mapping reqW)) [(aW, [0])]
      (sources_mapping reqW)) ∧
    cW.winners = cW.winners ∧
    (update_connectomes cW [(aW, [0])] (sources_mapping reqW)).winners =
      cW.winners ∧
    (∀ (a : Area) (srcs : List BrainPart),
      (a, srcs) ∈ Connectome.sources_mapping reqW →
      Dict.find [(aW, [0])] a = (Connectome.project_into cW a srcs).2)) :=
  ⟨rfl, fire_update_order cW reqW cW [(aW, [0])] rfl⟩

/-- C5: when plasticity is enabled, the plasticity update of a fire
round multiplies by `(1 + beta)` of the connection exactly those weight
entries whose source index is active (all indices for a Stimulus
source, the pre-call winner set for an Area source) and whose
destination index is a new winner of the touched area, and leaves every
other entry of that connection unchanged.  `hnd` restricts to requests
listing each source once per area; the duplicated-source case is the
subject of Claim 10. -/
theorem fire_plasticity_exact (c : Connectome) (req : Connectome.Req)
    (c' : Connectome) (a : Area) (srcs : List BrainPart) (p : BrainPart)
    (conn : Connection)
    (hfire : Connectome.fire c req = some c')
    (hpl : c.plasticityDisabled = false)
    (hsm : (Connectome.sources_mapping req).find a = some srcs)
    (hnd : srcs.Nodup)
    (hp : p ∈ srcs)
    (hconn : c.connections.find (p, .area a) = some conn) :
    ∃ conn', c'.connections.find (p, .area a) = some conn' ∧
      conn'.beta = conn.beta ∧
      ∀ i j, conn'.synapses i j =
        if i ∈ Connectome.activeOf c p ∧ j ∈ c'.winners a then
          conn.synapses i j * (1 + conn.beta)
        else conn.synapses i j := by
  obtain ⟨c1, nw, hpa, hc'⟩ := fire_inv c req c' hfire
  have hndnw := nw_keys_nodup c req c1 nw hpa
  have hamem : a ∈ (sources_mapping req).keys :=
    (Dict.find_isSome_iff_mem_keys _ _).mp (by rw [hsm]; rfl)
  have hanw : a ∈ nw.map Prod.fst := by
    rw [projectAll_keys _ _ _ _ hpa]
    exact hamem
  obtain ⟨win, hwin⟩ := Option.isSome_iff_exists.mp
    ((Dict.find_isSome_iff_mem_keys nw a).mpr hanw)
  have hconn1 : c1.connections.find (p, .area a) = some conn :=
    projectAll_find_some _ _ _ _ hpa _ conn hconn
  have hpl1 : c1.plasticityDisabled = false := by
    rw [(projectAll_sameButConn _ _ _ _ hpa).2.2.2.2.2.2]
    exact hpl
  have hcount : (((sources_mapping req).find a).getD []).count p = 1 := by
    rw [hsm]
    exact List.count_eq_one_of_mem hnd hp
  have hfind := update_connectomes_find c1 nw (sources_mapping req) a p conn
    win hpl1 hndnw hwin hconn1
  have hwinners : c'.winners a = win := by
    rw [hc', update_winners_winners_mem _ _ _ _
          (sources_mapping_keys_nodup req) hamem, hwin]
    rfl
  have hact : Connectome.activeOf c1 p = Connectome.activeOf c p :=
    activeOf_congr (projectAll_sameButConn _ _ _ _ hpa).2.2.2.2.2.1 p
  refine ⟨{ beta := conn.beta,
            synapses := plastMult conn.beta (Connectome.activeOf c1 p) win
              ((((sources_mapping req).find a).getD []).count p)
              conn.synapses }, ?_, rfl, ?_⟩
  · rw [hc', update_winners_connections]
    exact hfind
  · intro i j
    rw [hwinners]
    simp only [plastMult, hcount, hact, pow_one]

/-- C5 witness: on `cW`, firing `sW` into `aW` multiplies exactly the
(active, new-winner) entries of `connW` by `(1 + beta)`. -/
theorem fire_plasticity_exact_witness :
    Connectome.fire cW reqW = some ((Connectome.fire cW reqW).getD cW) ∧
    ∃ conn', ((Connectome.fire cW reqW).getD cW).connections.find
        (.stim sW, .area aW) = some conn' ∧
      conn'.beta = connW.beta ∧
      ∀ i j, conn'.synapses i j =
        if i ∈ Connectome.activeOf cW (.stim sW) ∧
            j ∈ ((Connectome.fire cW reqW).getD cW).winners aW then
          connW.synapses i j * (1 + connW.beta)
        else connW.synapses i j :=
  ⟨rfl, fire_plasticity_exact cW reqW _ aW [.stim sW] (.stim sW) connW rfl rfl
    rfl (by decide) (by decide) rfl⟩

/-- C6: for a registered area `a` with `k ≤ n`, after any successful
fire call in which `a` appears as a destination (its per-round source
list exists), `a`'s winner set holds exactly `min(k, n) = k` distinct
neuron indices, all below `n`. -/
theorem fire_winner_quota (c : Connectome) (req : Connectome.Req)
    (c' : Connectome) (a : Area) (srcs : List BrainPart)
    (hfire : Connectome.fire c req = some c')
    (hsm : (Connectome.sources_mapping req).find a = some srcs)
    (hk : a.k ≤ a.n) :
    (c'.winners a).length = a.k ∧ (c'.winners a).Nodup ∧
      ∀ i ∈ c'.winners a, i < a.n := by
  obtain ⟨c1, nw, hpa, hc'⟩ := fire_inv c req c' hfire
  have hamem : a ∈ (sources_mapping req).keys :=
    (Dict.find_isSome_iff_mem_keys _ _).mp (by rw [hsm]; rfl)
  have hanw : a ∈ nw.map Prod.fst := by
    rw [projectAll_keys _ _ _ _ hpa]
    exact hamem
  obtain ⟨w, hwin⟩ := Option.isSome_iff_exists.mp
    ((Dict.find_isSome_iff_mem_keys nw a).mpr hanw)
  have hmem : (a, srcs) ∈ sources_mapping req := Dict.find_mem _ _ _ hsm
  have hpur := projectAll_purity _ _ _ _ (sources_mapping_keys_nodup req) hpa
    a srcs hmem
  have htop : Connectome.topK
      (inputVector (ensureConnections c a srcs) a srcs) a.k = some w := by
    rw [← project_into_snd, ← hpur, hwin]
  have hlen0 := topK_length _ _ _ htop
  rw [inputVector_length] at hlen0
  have hwinners : c'.winners a = w := by
    rw [hc', update_winners_winners_mem _ _ _ _
          (sources_mapping_keys_nodup req) hamem, hwin]
    rfl
  rw [hwinners]
  refine ⟨?_, topK_nodup _ _ _ htop, ?_⟩
  · rw [hlen0]
    exact min_eq_left hk
  · intro i hi
    have hlt := topK_mem_lt _ _ _ i htop hi
    rwa [inputVector_length] at hlt

/-- C6 witness: firing `sW` into `aW` (with `k = n = 1`) leaves exactly
one winner, below `n`. -/
theorem fire_winner_quota_witness :
    Connectome.fire cW reqW = some ((Connectome.fire cW reqW).getD cW) ∧
    aW.k ≤ aW.n ∧
    ((((Connectome.fire cW reqW).getD cW).winners aW).length = aW.k ∧
     (((Connectome.fire cW reqW).getD cW).winners aW).Nodup ∧
     ∀ i ∈ ((Connectome.fire cW reqW).getD cW).winners aW, i < aW.n) :=
  ⟨rfl, by decide, fire_winner_quota cW reqW _ aW [.stim sW] rfl rfl (by decide)⟩

/-- C7: when plasticity is enabled, no weight entry of any
pre-existing connection decreases across a fire call: given
non-negative weights and a non-negative plasticity rate, every entry
either stays the same or increases (it is multiplied by
`(1 + beta)^m ≥ 1` exactly when its destination is a new winner and its
source is active). -/
theorem fire_weights_monotone (c : Connectome) (req : Connectome.Req)
    (c' : Connectome) (p b : BrainPart) (conn : Connection)
    (hfire : Connectome.fire c req = some c')
    (hpl : c.plasticityDisabled = false)
    (hconn : c.connections.find (p, b) = some conn)
    (hbeta : 0 ≤ conn.beta)
    (hsyn : ∀ i j, 0 ≤ conn.synapses i j) :
    ∃ conn', c'.connections.find (p, b) = some conn' ∧
      ∀ i j, conn.synapses i j ≤ conn'.synapses i j := by
  obtain ⟨c1, nw, hpa, hc'⟩ := fire_inv c req c' hfire
  have hconn1 : c1.connections.find (p, b) = some conn :=
    projectAll_find_some _ _ _ _ hpa _ conn hconn
  have hndnw := nw_keys_nodup c req c1 nw hpa
  have hpl1 : c1.plasticityDisabled = false := by
    rw [(projectAll_sameButConn _ _ _ _ hpa).2.2.2.2.2.2]
    exact hpl
  rw [hc', update_winners_connections]
  cases b with
  | stim s =>
      refine ⟨conn, ?_, fun i j => le_refl _⟩
      rw [update_connectomes_find_frame _ _ _ _ (by simp)]
      exact hconn1
  | area a2 =>
      cases hnwa : nw.find a2 with
      | none =>
          have hnm : a2 ∉ nw.map Prod.fst := by
            intro hmem
            have hs := (Dict.find_isSome_iff_mem_keys nw a2).mpr hmem
            rw [hnwa] at hs
            simp at hs
          refine ⟨conn, ?_, fun i j => le_refl _⟩
          rw [update_connectomes_find_frame _ _ _ (p, BrainPart.area a2)
                (fun a' ha' => by
                  simp only [ne_eq, BrainPart.area.injEq]
                  intro hh
                  exact hnm (hh ▸ ha'))]
          exact hconn1
      | some win =>
          have hfind := update_connectomes_find c1 nw (sources_mapping req) a2
            p conn win hpl1 hndnw hnwa hconn1
          refine ⟨_, hfind, ?_⟩
          intro i j
          simp only [plastMult]
          by_cases hij : i ∈ Connectome.activeOf c1 p ∧ j ∈ win
          · rw [if_pos hij]
            have h1 : (1 : ℚ) ≤ (1 + conn.beta) ^
                ((((sources_mapping req).find a2).getD []).count p) := by
              calc (1 : ℚ) = 1 ^ ((((sources_mapping req).find a2).getD []).count p) :=
                    (one_pow _).symm
                _ ≤ _ := pow_le_pow_left₀ (by norm_num) (by linarith) _
            exact le_mul_of_one_le_right (hsyn i j) h1
          · rw [if_neg hij]

/-- C7 witness: on `cW` (all weights 1, beta 1), firing `sW` into `aW`
leaves every entry of `connW` at least its old value. -/
theorem fire_weights_monotone_witness :
    Connectome.fire cW reqW = some ((Connectome.fire cW reqW).getD cW) ∧
    0 ≤ connW.beta ∧ (∀ i j, 0 ≤ connW.synapses i j) ∧
    ∃ conn', ((Connectome.fire cW reqW).getD cW).connections.find
        (.stim sW, .area aW) = some conn' ∧
      ∀ i j, connW.synapses i j ≤ conn'.synapses i j :=
  ⟨rfl, by norm_num [connW], fun i j => by norm_num [connW],
   fire_weights_monotone cW reqW _ (.stim sW) (.area aW) connW rfl rfl rfl
     (by norm_num [connW]) (fun i j => by norm_num [connW])⟩

/-- C9: a fire call mutates only the winner sets of the areas appearing
as destinations in the request (and only the connections into those
areas): every other area's winner set and every other pair's connection
entry (present or absent) is exactly as before; the touched areas are
exactly those listed as destinations; and a request entry with an empty
destination list contributes nothing — it is a no-op, not an error. -/
theorem fire_frame_effects (c : Connectome) (req : Connectome.Req)
    (c' : Connectome)
    (hfire : Connectome.fire c req = some c') :
    (∀ a : Area, a ∉ (Connectome.sources_mapping req).keys →
      c'.winners a = c.winners a) ∧
    (∀ q b : BrainPart,
      (∀ a : Area, b = .area a → a ∉ (Connectome.sources_mapping req).keys) →
      c'.connections.find (q, b) = c.connections.find (q, b)) ∧
    (∀ a : Area, a ∈ (Connectome.sources_mapping req).keys ↔
      ∃ pa ∈ req, a ∈ pa.2) ∧
    (∀ p₀ : BrainPart, Connectome.fire c ((p₀, []) :: req) =
      Connectome.fire c req) := by
  obtain ⟨c1, nw, hpa, hc'⟩ := fire_inv c req c' hfire
  refine ⟨?_, ?_, fun a => sources_mapping_keys_mem req a, fun p₀ => rfl⟩
  · intro a ha
    rw [hc', update_winners_winners_not_mem _ _ _ _ ha,
        (update_connectomes_sameButConn c1 nw _).2.2.2.2.2.1,
        (projectAll_sameButConn _ _ _ _ hpa).2.2.2.2.2.1]
  · intro q b hb
    have hcond : ∀ a' ∈ (sources_mapping req).map Prod.fst,
        (q, b).2 ≠ BrainPart.area a' := by
      intro a' ha' hh
      exact hb a' hh ha'
    have hcond2 : ∀ a' ∈ nw.map Prod.fst,
        (q, b).2 ≠ BrainPart.area a' := by
      rw [projectAll_keys _ _ _ _ hpa]
      exact hcond
    rw [hc', update_winners_connections,
        update_connectomes_find_frame _ _ _ _ hcond2,
        projectAll_find_frame _ _ _ _ hpa _ hcond]

/-- C9 witness: firing `sW` into `aW` on `cW` leaves every other area
and connection untouched, the touched areas are exactly the requested
destinations, and an empty destination list is a no-op. -/
theorem fire_frame_effects_witness :
    Connectome.fire cW reqW = some ((Connectome.fire cW reqW).getD cW) ∧
    ((∀ a : Area, a ∉ (Connectome.sources_mapping reqW).keys →
        ((Connectome.fire cW reqW).getD cW).winners a = cW.winners a) ∧
     (∀ q b : BrainPart,
        (∀ a : Area, b = .area a → a ∉ (Connectome.sources_mapping reqW).keys) →
        ((Connectome.fire cW reqW).getD cW).connections.find (q, b) =
          cW.connections.find (q, b)) ∧
     (∀ a : Area, a ∈ (Connectome.sources_mapping reqW).keys ↔
        ∃ pa ∈ reqW, a ∈ pa.2) ∧
     (∀ p₀ : BrainPart, Connectome.fire cW ((p₀, []) :: reqW) =
        Connectome.fire cW reqW)) :=
  ⟨rfl, fire_frame_effects cW reqW _ rfl⟩

/-- C10: fire treats a destination list as a multiset.  If the request
is a single source `p` whose destination list contains the area `a`
exactly `m + 1` times, then the winner computation adds `p`'s
contribution `m + 1` times (the input vector entry for neuron `j` is
`(m + 1) * contrib`), and the plasticity loop multiplies every (active
source, new winner) entry of the connection by `(1 + beta)` once per
occurrence — `(1 + beta)^(m+1)` in total — leaving other entries
unchanged. -/
theorem fire_multiset_semantics (c : Connectome) (p : BrainPart) (a : Area)
    (m : Nat) (conn : Connection) (c' : Connectome)
    (hfire : Connectome.fire c [(p, List.replicate (m + 1) a)] = some c')
    (hpl : c.plasticityDisabled = false)
    (hconn : c.connections.find (p, .area a) = some conn) :
    Connectome.topK ((List.range a.n).map
        (fun j => ((m + 1 : Nat) : ℚ) * contrib c a p j)) a.k =
      some (c'.winners a) ∧
    ∃ conn', c'.connections.find (p, .area a) = some conn' ∧
      conn'.beta = conn.beta ∧
      ∀ i j, conn'.synapses i j =
        if i ∈ Connectome.activeOf c p ∧ j ∈ c'.winners a then
          conn.synapses i j * (1 + conn.beta) ^ (m + 1)
        else conn.synapses i j := by
  obtain ⟨c1, nw, hpa, hc'⟩ := fire_inv _ _ _ hfire
  have hndnw := nw_keys_nodup _ _ _ _ hpa
  have hsm : (sources_mapping [(p, List.replicate (m + 1) a)]).find a =
      some (List.replicate (m + 1) p) := by
    rw [sources_mapping_replicate p a m]
    simp [Dict.find]
  have hamem : a ∈ (sources_mapping [(p, List.replicate (m + 1) a)]).keys :=
    (Dict.find_isSome_iff_mem_keys _ _).mp (by rw [hsm]; rfl)
  have hanw : a ∈ nw.map Prod.fst := by
    rw [projectAll_keys _ _ _ _ hpa]
    exact hamem
  obtain ⟨win, hwin⟩ := Option.isSome_iff_exists.mp
    ((Dict.find_isSome_iff_mem_keys nw a).mpr hanw)
  have hmem : (a, List.replicate (m + 1) p) ∈
      sources_mapping [(p, List.replicate (m + 1) a)] :=
    Dict.find_mem _ _ _ hsm
  have hpur := projectAll_purity _ _ _ _
    (sources_mapping_keys_nodup _) hpa a _ hmem
  have hens : ensureConnections c a (List.replicate (m + 1) p) = c := by
    refine ensure_noop c a _ ?_
    intro q hq
    rw [List.eq_of_mem_replicate hq, hconn]
    rfl
  have htop : (project_into c a (List.replicate (m + 1) p)).2 = some win := by
    rw [← hpur, hwin]
  rw [project_into_snd, hens, inputVector_replicate] at htop
  have hwinners : c'.winners a = win := by
    rw [hc', update_winners_winners_mem _ _ _ _
          (sources_mapping_keys_nodup _) hamem, hwin]
    rfl
  have hconn1 : c1.connections.find (p, .area a) = some conn :=
    projectAll_find_some _ _ _ _ hpa _ conn hconn
  have hpl1 : c1.plasticityDisabled = false := by
    rw [(projectAll_sameButConn _ _ _ _ hpa).2.2.2.2.2.2]
    exact hpl
  have hcount : (((sources_mapping [(p, List.replicate (m + 1) a)]).find
      a).getD []).count p = m + 1 := by
    rw [hsm]
    simp [List.count_replicate_self]
  have hfind := update_connectomes_find c1 nw
    (sources_mapping [(p, List.replicate (m + 1) a)]) a p conn win hpl1 hndnw
    hwin hconn1
  have hact : Connectome.activeOf c1 p = Connectome.activeOf c p :=
    activeOf_congr (projectAll_sameButConn _ _ _ _ hpa).2.2.2.2.2.1 p
  constructor
  · rw [hwinners]
    exact htop
  · refine ⟨{ beta := conn.beta,
              synapses := plastMult conn.beta (Connectome.activeOf c1 p) win
                ((((sources_mapping [(p, List.replicate (m + 1) a)]).find
                  a).getD []).count p) conn.synapses }, ?_, rfl, ?_⟩
    · rw [hc', update_winners_connections]
      exact hfind
    · intro i j
      rw [hwinners]
      simp only [plastMult, hcount, hact]

/-- C10 witness: firing `sW` into `aW` twice in one request multiplies
the (active, winner) entries of `connW` by `(1 + beta)^2` and doubles
the input contribution. -/
theorem fire_multiset_semantics_witness :
    Connectome.fire cW [(.stim sW, List.replicate 2 aW)] =
      some ((Connectome.fire cW [(.stim sW, List.replicate 2 aW)]).getD cW) ∧
    (Connectome.topK ((List.range aW.n).map
        (fun j => ((1 + 1 : Nat) : ℚ) * contrib cW aW (.stim sW) j)) aW.k =
      some (((Connectome.fire cW [(.stim sW, List.replicate 2 aW)]).getD
        cW).winners aW) ∧
    ∃ conn', ((Connectome.fire cW [(.stim sW, List.replicate 2 aW)]).getD
        cW).connections.find (.stim sW, .area aW) = some conn' ∧
      conn'.beta = connW.beta ∧
      ∀ i j, conn'.synapses i j =
        if i ∈ Connectome.activeOf cW (.stim sW) ∧
            j ∈ ((Connectome.fire cW [(.stim sW, List.replicate 2 aW)]).getD
              cW).winners aW then
          connW.synapses i j * (1 + connW.beta) ^ (1 + 1)
        else connW.synapses i j) :=
  ⟨rfl, fire_multiset_semantics cW (.stim sW) aW 1 connW _ rfl rfl rfl⟩

end AC
